import Mathlib

/-!
Verification of the crossword CSP solver (CrosswordCreator in generate.py).

The solver's state is a mapping from variables (word slots) to candidate word
lists; the operations are node-consistency filtering, AC-3 arc-consistency
propagation, and heuristic backtracking search.  Python sets and dicts are
embedded as lists and association lists; mutation of self.domains is embedded
as explicit state passing.  The Crossword class (variables, words, overlaps,
neighbors) is not part of the translated file; its interface is modelled from
the spec: a fixed variable list, a word list, and a pairwise overlap relation,
with neighbors derived as the variables having an overlap entry.
-/

/-- A crossword variable (slot): start cell, direction, derived length. -/
structure Variable where
  row : Nat
  col : Nat
  down : Bool
  length : Nat
deriving DecidableEq

/-- Words are lists of characters (Python strings under indexing). -/
abbrev Word := List Char

/-- Python w[i]; all indices reached in the program are in range. -/
def charAt (w : Word) (i : Nat) : Char :=
  List.getD w i ' '

/-- Modelled from the spec: the PuzzleModel interface of the external
Crossword class (its source is not in the translated tree): the set of slots,
the candidate word list, and the pairwise overlap relation returning the
(indexA, indexB) shared-cell pair or none. -/
structure Crossword where
  vars : List Variable
  words : List Word
  overlaps : Variable → Variable → Option (Nat × Nat)

/-- Modelled from the spec: Neighbors(slot) is the set of slots with which it
has an overlap entry. -/
def neighbors (c : Crossword) (var : Variable) : List Variable :=
  c.vars.filter (fun v => v != var && (c.overlaps var v).isSome)

/-- The mutable self.domains dictionary, as a total map. -/
def Domains := Variable → List Word

/-- CrosswordCreator.__init__: every variable starts with the full word list. -/
def initialDomains (c : Crossword) : Domains :=
  fun _ => c.words

/-- CrosswordCreator.enforce_node_consistency: each crossword variable's
domain is filtered to the words of matching length. -/
def enforce_node_consistency (c : Crossword) (d : Domains) : Domains :=
  fun var =>
    if var ∈ c.vars then
      (d var).filter (fun w => w.length == var.length)
    else d var

/-- CrosswordCreator.revise: with overlap (i, j), keep in Domain(x) the words
supported by some word of Domain(y); report whether any word was dropped.
With no overlap, nothing happens and the result is false. -/
def revise (c : Crossword) (d : Domains) (x y : Variable) : Bool × Domains :=
  match c.overlaps x y with
  | none => (false, d)
  | some (i, j) =>
    let supported := fun w => (d y).any (fun v => charAt w i == charAt v j)
    let revised := (d x).any (fun w => !(supported w))
    let newDom := (d x).filter supported
    (revised, fun v => if v = x then newDom else d v)

/-- The arcs appended by ac3 after a successful revision of x against y
(generate.py line 175): note the appended arcs are (x, z), x first. -/
def ac3_enqueue (c : Crossword) (x y : Variable) : List (Variable × Variable) :=
  ((neighbors c x).filter (fun z => z != y)).map (fun z => (x, z))

/-- The default initial worklist of ac3: all ordered pairs (v1, v2) with v2 a
neighbor of v1. -/
def initArcs (c : Crossword) : List (Variable × Variable) :=
  c.vars.flatMap (fun v1 => (neighbors c v1).map (fun v2 => (v1, v2)))

/-- Total number of candidate words over all crossword variables. -/
def totalSize (c : Crossword) (d : Domains) : Nat :=
  (c.vars.map (fun v => (d v).length)).sum

/-- Upper bound on the number of worklist iterations ac3 can still perform:
each iteration pops one arc, and pushes (at most the number of variables)
new arcs only after strictly shrinking a domain of a crossword variable. -/
def phi (c : Crossword) (arcs : List (Variable × Variable)) (d : Domains) : Nat :=
  arcs.length + totalSize c d * (c.vars.length + 1)

/-- The ac3 worklist loop.  Fuel only bounds iteration count; ac3 below always
supplies fuel exceeding phi, which strictly decreases each iteration, so the
fuel-exhausted branch is never reached from ac3. -/
def ac3Loop (c : Crossword) : Nat → List (Variable × Variable) → Domains → Bool × Domains
  | 0, _, d => (false, d)
  | _ + 1, [], d => (true, d)
  | fuel + 1, (x, y) :: rest, d =>
    let r := revise c d x y
    if r.1 then
      if (r.2 x).isEmpty then (false, r.2)
      else ac3Loop c fuel (rest ++ ac3_enqueue c x y) r.2
    else ac3Loop c fuel rest r.2

/-- CrosswordCreator.ac3 with the default initial arc list. -/
def ac3 (c : Crossword) (d : Domains) : Bool × Domains :=
  ac3Loop c (phi c (initArcs c) d + 1) (initArcs c) d

/-- Assignments are association lists variable to word (Python dict). -/
abbrev Assignment := List (Variable × Word)

/-- Python: var in assignment / assignment[var]. -/
def lookupA (a : Assignment) (v : Variable) : Option Word :=
  match a with
  | [] => none
  | (k, w) :: rest => if k = v then some w else lookupA rest v

/-- CrosswordCreator.assignment_complete. -/
def assignment_complete (c : Crossword) (a : Assignment) : Bool :=
  c.vars.all (fun v => (lookupA a v).isSome)

/-- The loop body of CrosswordCreator.consistent: iterate over the assignment
items, tracking the words seen so far; fail on a repeated word, a length
mismatch, or an overlap-character clash with an assigned neighbor. -/
def consistentAux (c : Crossword) (a : Assignment) (seen : List Word) :
    List (Variable × Word) → Bool
  | [] => true
  | (var, word) :: rest =>
    if seen.contains word || word.length != var.length then false
    else if (neighbors c var).all (fun nb =>
        match lookupA a nb with
        | none => true
        | some wnb =>
          match c.overlaps var nb with
          | some (i, j) => charAt word i == charAt wnb j
          | none => true) then
      consistentAux c a (word :: seen) rest
    else false

/-- CrosswordCreator.consistent. -/
def consistent (c : Crossword) (a : Assignment) : Bool :=
  consistentAux c a [] a

/-- The ruled-out count of CrosswordCreator.order_domain_values: for word w in
Domain(var), over every unassigned neighbor nb with overlap (i, j), the number
of words of Domain(nb) clashing with w at the shared cell. -/
def ruled_out_count (c : Crossword) (d : Domains) (a : Assignment)
    (var : Variable) (w : Word) : Nat :=
  (((neighbors c var).filter (fun nb => (lookupA a nb).isNone)).map (fun nb =>
    match c.overlaps var nb with
    | some (i, j) => (d nb).countP (fun v => !(charAt w i == charAt v j))
    | none => 0)).sum

/-- Ascending comparison by ruled-out count (the sort key of
order_domain_values). -/
def lcvLE (c : Crossword) (d : Domains) (a : Assignment) (var : Variable)
    (w1 w2 : Word) : Prop :=
  ruled_out_count c d a var w1 ≤ ruled_out_count c d a var w2

instance lcvLE.decRel (c : Crossword) (d : Domains) (a : Assignment)
    (var : Variable) : DecidableRel (lcvLE c d a var) :=
  fun _ _ => Nat.decLe _ _

/-- CrosswordCreator.order_domain_values: the domain of var sorted ascending
by ruled-out count (Python sorted is a stable sort; so is insertionSort). -/
def order_domain_values (c : Crossword) (d : Domains) (var : Variable)
    (a : Assignment) : List Word :=
  List.insertionSort (lcvLE c d a var) (d var)

/-- The sort key of select_unassigned_variable: domain size ascending, then
degree descending (Python key (len(domain), -degree)). -/
def varLE (c : Crossword) (d : Domains) (v1 v2 : Variable) : Prop :=
  (d v1).length < (d v2).length ∨
    ((d v1).length = (d v2).length ∧
      (neighbors c v2).length ≤ (neighbors c v1).length)

instance varLE.decRel (c : Crossword) (d : Domains) : DecidableRel (varLE c d) :=
  fun v1 v2 => by
    unfold varLE
    exact inferInstance

/-- CrosswordCreator.select_unassigned_variable: first element of the
unassigned variables sorted by (domain size, -degree); none when all are
assigned. -/
def select_unassigned_variable (c : Crossword) (d : Domains) (a : Assignment) :
    Option Variable :=
  (List.insertionSort (varLE c d)
    (c.vars.filter (fun v => (lookupA a v).isNone))).head?

/-- CrosswordCreator.backtrack.  Fuel bounds the recursion depth; each
recursive call extends the assignment with one previously unassigned
variable, so depth never exceeds the variable count and the fuel supplied by
solve is never exhausted.  The inner findSome? is the for-loop over candidate
values: the first value whose consistent extension leads to a truthy recursive
result wins (Python: if result: return result). -/
def backtrack (c : Crossword) (d : Domains) : Nat → Assignment → Option Assignment
  | 0, _ => none
  | fuel + 1, a =>
    if assignment_complete c a then some a
    else
      match select_unassigned_variable c d a with
      | none => none
      | some var =>
        (order_domain_values c d var a).findSome? (fun w =>
          let a1 : Assignment := (var, w) :: a
          if consistent c a1 then
            match backtrack c d fuel a1 with
            | some r => if r.isEmpty then none else some r
            | none => none
          else none)

/-- Recursion-depth budget for the top-level backtrack call. -/
def solveFuel (c : Crossword) : Nat :=
  c.vars.length + 1

/-- CrosswordCreator.solve: enforce node consistency, run ac3 discarding its
Boolean result (the source never inspects it), then backtrack from the empty
assignment. -/
def solve (c : Crossword) : Option Assignment :=
  let d1 := enforce_node_consistency c (initialDomains c)
  let d2 := (ac3 c d1).2
  backtrack c d2 (solveFuel c) []

/-! ### Concrete puzzles used to evaluate the development -/

/-- Slot A of the three-slot puzzle: across, length 2. -/
def xA : Variable := ⟨0, 0, false, 2⟩

/-- Slot B of the three-slot puzzle: down, length 3. -/
def xB : Variable := ⟨0, 1, true, 3⟩

/-- Slot C of the three-slot puzzle: across, length 4. -/
def xC : Variable := ⟨2, 0, false, 4⟩

/-- Overlaps of the three-slot puzzle: A and B share a cell as (0, 1), B and
C share a cell as (0, 0); the relation is symmetric with indices swapped. -/
def xOverlaps : Variable → Variable → Option (Nat × Nat) := fun p q =>
  if p = xA ∧ q = xB then some (0, 1)
  else if p = xB ∧ q = xA then some (1, 0)
  else if p = xB ∧ q = xC then some (0, 0)
  else if p = xC ∧ q = xB then some (0, 0)
  else none

/-- Three-slot puzzle on which the reversed arc re-enqueue of ac3 leaves a
dead value behind. -/
def cX : Crossword :=
  ⟨[xA, xB, xC],
   ["pq".toList, "rs".toList, "xpa".toList, "yra".toList, "ycaa".toList],
   xOverlaps⟩

/-- The three-slot puzzle domains after node consistency. -/
def dX : Domains := enforce_node_consistency cX (initialDomains cX)

/-- Slot A of the unsatisfiable puzzle: across, length 3. -/
def uA : Variable := ⟨0, 0, false, 3⟩

/-- Slot B of the unsatisfiable puzzle: down, length 3. -/
def uB : Variable := ⟨0, 0, true, 3⟩

/-- Two length-3 slots sharing one cell as (0, 1); the single candidate word
has different characters at positions 0 and 1, so ac3 empties a domain. -/
def cU : Crossword :=
  ⟨[uA, uB],
   ["abc".toList],
   fun p q =>
     if p = uA ∧ q = uB then some (0, 1)
     else if p = uB ∧ q = uA then some (1, 0)
     else none⟩

/-- The unsatisfiable puzzle domains after node consistency. -/
def dU : Domains := enforce_node_consistency cU (initialDomains cU)

/-- The lone slot of the empty-domain puzzle: across, length 3. -/
def eA : Variable := ⟨0, 0, false, 3⟩

/-- One length-3 slot with no neighbors and no length-3 candidate word: its
domain is already empty when ac3 starts. -/
def cE : Crossword :=
  ⟨[eA], ["xx".toList], fun _ _ => none⟩

/-- The empty-domain puzzle domains after node consistency. -/
def dE : Domains := enforce_node_consistency cE (initialDomains cE)

/-- Slot A of the solvable puzzle: across, length 2. -/
def wA : Variable := ⟨0, 0, false, 2⟩

/-- Slot B of the solvable puzzle: down, length 2. -/
def wB : Variable := ⟨0, 0, true, 2⟩

/-- Two length-2 slots sharing their first cell, with two candidate words
agreeing on the first character: solve finds a complete assignment. -/
def cW : Crossword :=
  ⟨[wA, wB],
   ["ab".toList, "ac".toList],
   fun p q =>
     if p = wA ∧ q = wB then some (0, 0)
     else if p = wB ∧ q = wA then some (0, 0)
     else none⟩

/-- The assignment returned by solve on the solvable puzzle. -/
def rW : Assignment := [(wB, "ac".toList), (wA, "ab".toList)]

/-! ### List helpers -/

lemma length_filter_lt_of_mem {α : Type} {l : List α} {p : α → Bool} {a : α}
    (ha : a ∈ l) (hpa : p a = false) : (l.filter p).length < l.length := by
  induction l with
  | nil => cases ha
  | cons b t ih =>
    rcases List.mem_cons.mp ha with hb | ht
    · subst hb
      simp only [List.filter_cons, hpa, List.length_cons]
      exact Nat.lt_succ_of_le (List.length_filter_le p t)
    · simp only [List.filter_cons, List.length_cons]
      cases hp : p b
      · exact Nat.lt_succ_of_lt (ih ht)
      · simpa using Nat.succ_lt_succ (ih ht)

lemma sum_map_lt {α : Type} {l : List α} {f g : α → Nat} {x : α}
    (hx : x ∈ l) (hle : ∀ v ∈ l, f v ≤ g v) (hlt : f x < g x) :
    (l.map f).sum < (l.map g).sum := by
  induction l with
  | nil => cases hx
  | cons b t ih =>
    have hbt : f b ≤ g b := hle b (List.mem_cons_self b t)
    have htle : (t.map f).sum ≤ (t.map g).sum :=
      List.sum_le_sum (fun v hv => hle v (List.mem_cons_of_mem b hv))
    rcases List.mem_cons.mp hx with hb | ht
    · subst hb
      simp only [List.map_cons, List.sum_cons]
      omega
    · have := ih ht (fun v hv => hle v (List.mem_cons_of_mem b hv))
      simp only [List.map_cons, List.sum_cons]
      omega

/-! ### revise lemmas -/

/-- The character-support predicate of revise. -/
def supportedBy (d : Domains) (y : Variable) (i j : Nat) (w : Word) : Bool :=
  (d y).any (fun v => charAt w i == charAt v j)

lemma revise_none (c : Crossword) (d : Domains) (x y : Variable)
    (hov : c.overlaps x y = none) : revise c d x y = (false, d) := by
  unfold revise
  rw [hov]

lemma revise_some (c : Crossword) (d : Domains) (x y : Variable) (i j : Nat)
    (hov : c.overlaps x y = some (i, j)) :
    revise c d x y =
      ((d x).any (fun w => !(supportedBy d y i j w)),
       fun v => if v = x then (d x).filter (supportedBy d y i j) else d v) := by
  unfold revise supportedBy
  rw [hov]

lemma revise_snd_ne (c : Crossword) (d : Domains) (x y z : Variable)
    (h : z ≠ x) : (revise c d x y).2 z = d z := by
  cases hov : c.overlaps x y with
  | none => rw [revise_none c d x y hov]
  | some ij =>
    obtain ⟨i, j⟩ := ij
    rw [revise_some c d x y i j hov]
    simp [h]

lemma revise_mem_subset (c : Crossword) (d : Domains) (x y v : Variable)
    (w : Word) (h : w ∈ (revise c d x y).2 v) : w ∈ d v := by
  by_cases hv : v = x
  · rw [hv] at h ⊢
    cases hov : c.overlaps x y with
    | none => rw [revise_none c d x y hov] at h; exact h
    | some ij =>
      obtain ⟨i, j⟩ := ij
      rw [revise_some c d x y i j hov] at h
      simp only [if_pos rfl] at h
      exact List.mem_of_mem_filter h
  · rwa [revise_snd_ne c d x y v hv] at h

lemma revise_false_eq (c : Crossword) (d : Domains) (x y : Variable)
    (h : (revise c d x y).1 = false) : ∀ v, (revise c d x y).2 v = d v := by
  intro v
  by_cases hv : v = x
  · rw [hv]
    cases hov : c.overlaps x y with
    | none => rw [revise_none c d x y hov]
    | some ij =>
      obtain ⟨i, j⟩ := ij
      rw [revise_some c d x y i j hov] at h ⊢
      simp only [List.any_eq_false, Bool.not_eq_true'] at h
      simp only [if_pos rfl]
      exact List.filter_eq_self.mpr (fun w hw => by
        have hn := h w hw
        simpa using hn)
  · exact revise_snd_ne c d x y v hv

lemma revise_true_lt (c : Crossword) (d : Domains) (x y : Variable)
    (h : (revise c d x y).1 = true) :
    ((revise c d x y).2 x).length < (d x).length := by
  cases hov : c.overlaps x y with
  | none => rw [revise_none c d x y hov] at h; cases h
  | some ij =>
    obtain ⟨i, j⟩ := ij
    rw [revise_some c d x y i j hov] at h ⊢
    simp only [List.any_eq_true, Bool.not_eq_true'] at h
    obtain ⟨w, hw, hwp⟩ := h
    simp only [if_pos rfl]
    exact length_filter_lt_of_mem hw hwp

/-! ### ac3 lemmas -/

lemma ac3Loop_cons (c : Crossword) (fuel : Nat) (x y : Variable)
    (rest : List (Variable × Variable)) (d : Domains) :
    ac3Loop c (fuel + 1) ((x, y) :: rest) d =
      if (revise c d x y).1 then
        if ((revise c d x y).2 x).isEmpty then (false, (revise c d x y).2)
        else ac3Loop c fuel (rest ++ ac3_enqueue c x y) (revise c d x y).2
      else ac3Loop c fuel rest (revise c d x y).2 := rfl

lemma revise_len_le (c : Crossword) (d : Domains) (x y v : Variable) :
    ((revise c d x y).2 v).length ≤ (d v).length := by
  by_cases hv : v = x
  · rw [hv]
    cases hov : c.overlaps x y with
    | none => rw [revise_none c d x y hov]
    | some ij =>
      obtain ⟨i, j⟩ := ij
      rw [revise_some c d x y i j hov]
      simp only [if_pos rfl]
      exact List.length_filter_le _ _
  · rw [revise_snd_ne c d x y v hv]

lemma totalSize_lt_of_revised (c : Crossword) (d : Domains) (x y : Variable)
    (hx : x ∈ c.vars) (h : (revise c d x y).1 = true) :
    totalSize c (revise c d x y).2 < totalSize c d :=
  sum_map_lt hx (fun v _ => revise_len_le c d x y v) (revise_true_lt c d x y h)

lemma totalSize_eq_of_not_revised (c : Crossword) (d : Domains) (x y : Variable)
    (h : (revise c d x y).1 = false) :
    totalSize c (revise c d x y).2 = totalSize c d := by
  unfold totalSize
  have hv := revise_false_eq c d x y h
  simp only [hv]

lemma ac3_enqueue_len_le (c : Crossword) (x y : Variable) :
    (ac3_enqueue c x y).length ≤ c.vars.length := by
  unfold ac3_enqueue neighbors
  rw [List.length_map]
  exact le_trans (List.length_filter_le _ _) (List.length_filter_le _ _)

lemma ac3_enqueue_fst (c : Crossword) (x y : Variable) (q : Variable × Variable)
    (h : q ∈ ac3_enqueue c x y) : q.1 = x := by
  unfold ac3_enqueue at h
  obtain ⟨z, _, hq⟩ := List.mem_map.mp h
  rw [← hq]

lemma initArcs_fst (c : Crossword) : ∀ p ∈ initArcs c, p.1 ∈ c.vars := by
  intro p hp
  unfold initArcs at hp
  obtain ⟨v1, hv1, hmem⟩ := List.mem_flatMap.mp hp
  obtain ⟨v2, _, hpe⟩ := List.mem_map.mp hmem
  rw [← hpe]
  exact hv1

lemma ac3Loop_subset (c : Crossword) : ∀ (fuel : Nat) arcs (d : Domains)
    (v : Variable) (w : Word), w ∈ (ac3Loop c fuel arcs d).2 v → w ∈ d v := by
  intro fuel
  induction fuel with
  | zero => intro arcs d v w h; exact h
  | succ n ih =>
    intro arcs d v w h
    rcases arcs with _ | ⟨p, rest⟩
    · exact h
    · obtain ⟨x, y⟩ := p
      rw [ac3Loop_cons] at h
      by_cases hr : (revise c d x y).1 = true
      · rw [if_pos hr] at h
        by_cases he : ((revise c d x y).2 x).isEmpty = true
        · rw [if_pos he] at h
          exact revise_mem_subset c d x y v w h
        · rw [if_neg he] at h
          exact revise_mem_subset c d x y v w (ih _ _ v w h)
      · rw [if_neg hr] at h
        exact revise_mem_subset c d x y v w (ih _ _ v w h)

lemma ac3Loop_false_empty (c : Crossword) : ∀ (fuel : Nat) arcs (d : Domains),
    (∀ p ∈ arcs, p.1 ∈ c.vars) → phi c arcs d < fuel →
    (ac3Loop c fuel arcs d).1 = false →
    ∃ v ∈ c.vars, (ac3Loop c fuel arcs d).2 v = [] := by
  intro fuel
  induction fuel with
  | zero => intro arcs d _ hphi _; exact absurd hphi (Nat.not_lt_zero _)
  | succ n ih =>
    intro arcs d hinv hphi hfalse
    rcases arcs with _ | ⟨p, rest⟩
    · cases hfalse
    · obtain ⟨x, y⟩ := p
      rw [ac3Loop_cons] at hfalse ⊢
      have hxv : x ∈ c.vars := hinv (x, y) (List.mem_cons_self _ _)
      by_cases hr : (revise c d x y).1 = true
      · rw [if_pos hr] at hfalse ⊢
        by_cases he : ((revise c d x y).2 x).isEmpty = true
        · rw [if_pos he] at hfalse ⊢
          exact ⟨x, hxv, List.isEmpty_iff.mp he⟩
        · rw [if_neg he] at hfalse ⊢
          refine ih _ _ ?_ ?_ hfalse
          · intro q hq
            rcases List.mem_append.mp hq with hq1 | hq2
            · exact hinv q (List.mem_cons_of_mem _ hq1)
            · rw [ac3_enqueue_fst c x y q hq2]
              exact hxv
          · have hS : totalSize c (revise c d x y).2 < totalSize c d :=
              totalSize_lt_of_revised c d x y hxv hr
            have hmul : (totalSize c (revise c d x y).2 + 1) * (c.vars.length + 1) ≤
                totalSize c d * (c.vars.length + 1) :=
              Nat.mul_le_mul_right _ hS
            have hsucc : (totalSize c (revise c d x y).2 + 1) * (c.vars.length + 1) =
                totalSize c (revise c d x y).2 * (c.vars.length + 1) + (c.vars.length + 1) :=
              Nat.succ_mul _ _
            have hk : (ac3_enqueue c x y).length ≤ c.vars.length :=
              ac3_enqueue_len_le c x y
            unfold phi at hphi ⊢
            rw [List.length_cons] at hphi
            rw [List.length_append]
            omega
      · rw [if_neg hr] at hfalse ⊢
        refine ih _ _ ?_ ?_ hfalse
        · intro q hq
          exact hinv q (List.mem_cons_of_mem _ hq)
        · have hEq : totalSize c (revise c d x y).2 = totalSize c d :=
            totalSize_eq_of_not_revised c d x y (Bool.not_eq_true _ ▸ hr)
          unfold phi at hphi ⊢
          rw [List.length_cons] at hphi
          rw [hEq]
          omega

lemma ac3_false_empty (c : Crossword) (d : Domains)
    (h : (ac3 c d).1 = false) : ∃ v ∈ c.vars, (ac3 c d).2 v = [] := by
  unfold ac3 at h ⊢
  exact ac3Loop_false_empty c _ _ _ (initArcs_fst c) (Nat.lt_succ_self _) h

/-! ### Sort-key order instances -/

instance varLE.isTotal (c : Crossword) (d : Domains) :
    IsTotal Variable (varLE c d) := by
  constructor
  intro a b
  unfold varLE
  omega

instance varLE.isTrans (c : Crossword) (d : Domains) :
    IsTrans Variable (varLE c d) := by
  constructor
  intro a b e hab hbe
  unfold varLE at hab hbe ⊢
  omega

instance lcvLE.isTotal (c : Crossword) (d : Domains) (a : Assignment)
    (var : Variable) : IsTotal Word (lcvLE c d a var) :=
  ⟨fun w1 w2 => Nat.le_total (ruled_out_count c d a var w1) (ruled_out_count c d a var w2)⟩

instance lcvLE.isTrans (c : Crossword) (d : Domains) (a : Assignment)
    (var : Variable) : IsTrans Word (lcvLE c d a var) :=
  ⟨fun _ _ _ h1 h2 => Nat.le_trans h1 h2⟩

/-! ### lookupA and select lemmas -/

lemma lookupA_nil (v : Variable) : lookupA [] v = none := rfl

lemma select_some (c : Crossword) (d : Domains) (a : Assignment) (var : Variable)
    (h : select_unassigned_variable c d a = some var) :
    var ∈ c.vars ∧ lookupA a var = none := by
  unfold select_unassigned_variable at h
  have hmem : var ∈ List.insertionSort (varLE c d)
      (c.vars.filter (fun v => (lookupA a v).isNone)) := by
    cases hl : List.insertionSort (varLE c d)
        (c.vars.filter (fun v => (lookupA a v).isNone)) with
    | nil => rw [hl] at h; cases h
    | cons b t =>
      rw [hl] at h
      simp only [List.head?] at h
      rw [← Option.some.inj h]
      exact List.mem_cons_self b t
  rw [List.mem_insertionSort] at hmem
  have hmf := List.mem_filter.mp hmem
  exact ⟨hmf.1, Option.isNone_iff_eq_none.mp hmf.2⟩

lemma select_min_domain (c : Crossword) (d : Domains) (a : Assignment)
    (var : Variable) (h : select_unassigned_variable c d a = some var) :
    ∀ v ∈ c.vars, lookupA a v = none → (d var).length ≤ (d v).length := by
  intro v hv hvnone
  unfold select_unassigned_variable at h
  have hsorted : List.Sorted (varLE c d) (List.insertionSort (varLE c d)
      (c.vars.filter (fun u => (lookupA a u).isNone))) :=
    List.sorted_insertionSort (varLE c d) _
  have hvmem : v ∈ List.insertionSort (varLE c d)
      (c.vars.filter (fun u => (lookupA a u).isNone)) := by
    rw [List.mem_insertionSort]
    exact List.mem_filter.mpr ⟨hv, by rw [hvnone]; rfl⟩
  cases hl : List.insertionSort (varLE c d)
      (c.vars.filter (fun u => (lookupA a u).isNone)) with
  | nil => rw [hl] at h; cases h
  | cons b t =>
    rw [hl] at h hsorted hvmem
    simp only [List.head?] at h
    have hvb : b = var := Option.some.inj h
    rcases List.mem_cons.mp hvmem with hveq | hvt
    · rw [hveq, hvb]
    · have hrel : varLE c d b v := List.rel_of_sorted_cons hsorted v hvt
      rw [← hvb]
      unfold varLE at hrel
      omega

/-! ### consistent lemmas -/

lemma consistent_nil (c : Crossword) : consistent c [] = true := rfl

lemma consistentAux_sound (c : Crossword) (a : Assignment) :
    ∀ (items : List (Variable × Word)) (seen : List Word),
    consistentAux c a seen items = true →
    (∀ p ∈ items, (p.2 : Word).length = p.1.length)
    ∧ (∀ p ∈ items, (p.2 : Word) ∉ seen)
    ∧ List.Pairwise (fun p q : Variable × Word => p.2 ≠ q.2) items
    ∧ (∀ p ∈ items, ∀ nb ∈ neighbors c p.1, ∀ wnb, lookupA a nb = some wnb →
        ∀ i j, c.overlaps p.1 nb = some (i, j) →
          charAt p.2 i = charAt wnb j) := by
  intro items
  induction items with
  | nil =>
    intro seen _
    exact ⟨by simp, by simp, List.Pairwise.nil, by simp⟩
  | cons p rest ih =>
    intro seen h
    obtain ⟨var, word⟩ := p
    rw [consistentAux] at h
    by_cases h1 : (seen.contains word || word.length != var.length) = true
    · rw [if_pos h1] at h; cases h
    · rw [if_neg h1] at h
      simp only [Bool.or_eq_true, not_or] at h1
      obtain ⟨hcont, hbne⟩ := h1
      have hseen : word ∉ seen := fun hm => hcont (List.elem_iff.mpr hm)
      have hlen : word.length = var.length := by simpa using hbne
      by_cases h2 : ((neighbors c var).all (fun nb =>
          match lookupA a nb with
          | none => true
          | some wnb =>
            match c.overlaps var nb with
            | some (i, j) => charAt word i == charAt wnb j
            | none => true)) = true
      · rw [if_pos h2] at h
        obtain ⟨ihlen, ihseen, ihpw, ihnb⟩ := ih (word :: seen) h
        refine ⟨?_, ?_, ?_, ?_⟩
        · intro q hq
          rcases List.mem_cons.mp hq with hq1 | hq2
          · rw [hq1]; exact hlen
          · exact ihlen q hq2
        · intro q hq
          rcases List.mem_cons.mp hq with hq1 | hq2
          · rw [hq1]; exact hseen
          · exact fun hmem => ihseen q hq2 (List.mem_cons_of_mem _ hmem)
        · refine List.Pairwise.cons ?_ ihpw
          intro q hq
          have hqn := ihseen q hq
          simp only [List.mem_cons, not_or] at hqn
          exact fun he => hqn.1 he.symm
        · intro q hq nb hnb wnb hwnb i j hov
          rcases List.mem_cons.mp hq with hq1 | hq2
          · rw [hq1] at hnb hov ⊢
            have hall := List.all_eq_true.mp h2 nb hnb
            rw [hwnb, hov] at hall
            exact beq_iff_eq.mp hall
          · exact ihnb q hq2 nb hnb wnb hwnb i j hov
      · rw [if_neg h2] at h; cases h

lemma consistent_sound (c : Crossword) (a : Assignment)
    (h : consistent c a = true) :
    (∀ p ∈ a, (p.2 : Word).length = p.1.length)
    ∧ List.Pairwise (fun p q : Variable × Word => p.2 ≠ q.2) a
    ∧ (∀ p ∈ a, ∀ nb ∈ neighbors c p.1, ∀ wnb, lookupA a nb = some wnb →
        ∀ i j, c.overlaps p.1 nb = some (i, j) →
          charAt p.2 i = charAt wnb j) := by
  obtain ⟨h1, _, h3, h4⟩ := consistentAux_sound c a a [] h
  exact ⟨h1, h3, h4⟩

/-! ### backtrack soundness -/

lemma backtrack_sound (c : Crossword) (d : Domains) :
    ∀ (fuel : Nat) (a r : Assignment), backtrack c d fuel a = some r →
    consistent c a = true →
    assignment_complete c r = true ∧ consistent c r = true := by
  intro fuel
  induction fuel with
  | zero => intro a r h _; cases h
  | succ n ih =>
    intro a r h hcons
    rw [backtrack] at h
    by_cases hcomp : assignment_complete c a = true
    · rw [if_pos hcomp] at h
      exact ⟨Option.some.inj h ▸ hcomp, Option.some.inj h ▸ hcons⟩
    · rw [if_neg hcomp] at h
      cases hsel : select_unassigned_variable c d a with
      | none => rw [hsel] at h; cases h
      | some var =>
        rw [hsel] at h
        obtain ⟨w, _, hfw⟩ := List.exists_of_findSome?_eq_some h
        dsimp only at hfw
        by_cases hc1 : consistent c ((var, w) :: a) = true
        · rw [if_pos hc1] at hfw
          cases hbt : backtrack c d n ((var, w) :: a) with
          | none =>
            rw [hbt] at hfw
            exact Option.noConfusion hfw
          | some r0 =>
            rw [hbt] at hfw
            have hfw2 : (if r0.isEmpty = true then none else some r0 :
                Option Assignment) = some r := hfw
            by_cases he : r0.isEmpty = true
            · rw [if_pos he] at hfw2; cases hfw2
            · rw [if_neg he] at hfw2
              have hrr : r0 = r := Option.some.inj hfw2
              exact hrr ▸ ih ((var, w) :: a) r0 hbt hc1
        · rw [if_neg hc1] at hfw; cases hfw

lemma solve_sound (c : Crossword) (r : Assignment) (h : solve c = some r) :
    assignment_complete c r = true ∧ consistent c r = true := by
  unfold solve at h
  exact backtrack_sound c _ (solveFuel c) [] r h (consistent_nil c)

/-! ### Claim theorems -/

/-- C10: revise(x, y) modifies at most the domain of x: for every variable z
distinct from x (including y itself), the domain of z after the call equals
the domain of z before the call. -/
theorem revise_frame_effect (c : Crossword) (d : Domains) (x y z : Variable)
    (h : z ≠ x) : (revise c d x y).2 z = d z :=
  revise_snd_ne c d x y z h

theorem revise_frame_effect_witness : (revise cX dX xB xC).2 xA = dX xA :=
  revise_frame_effect cX dX xB xC xA (by decide)

/-- C9: domains only ever shrink: enforce_node_consistency, revise and ac3
map every domain to a subset of its previous value and never add a word; the
search operations take the domain store as read-only input and return no
modified store. -/
theorem domains_only_shrink (c : Crossword) (d : Domains) :
    (∀ var w, w ∈ enforce_node_consistency c d var → w ∈ d var)
    ∧ (∀ x y var w, w ∈ (revise c d x y).2 var → w ∈ d var)
    ∧ (∀ var w, w ∈ (ac3 c d).2 var → w ∈ d var) := by
  refine ⟨?_, ?_, ?_⟩
  · intro var w hw
    unfold enforce_node_consistency at hw
    by_cases hv : var ∈ c.vars
    · rw [if_pos hv] at hw
      exact List.mem_of_mem_filter hw
    · rwa [if_neg hv] at hw
  · intro x y var w hw
    exact revise_mem_subset c d x y var w hw
  · intro var w hw
    unfold ac3 at hw
    exact ac3Loop_subset c _ _ _ var w hw

theorem domains_only_shrink_witness : ("pq".toList : Word) ∈ dX xA :=
  (domains_only_shrink cX dX).2.2 xA "pq".toList (by decide)

/-- C7: after enforce_node_consistency, every crossword variable's domain is
exactly the previous domain filtered to the words of its length (hence every
remaining word has the variable's length), and a second call changes no
domain. -/
theorem node_consistency_spec (c : Crossword) (d : Domains) :
    (∀ var ∈ c.vars,
      enforce_node_consistency c d var
        = (d var).filter (fun w => w.length == var.length)
      ∧ ∀ w ∈ enforce_node_consistency c d var, w.length = var.length)
    ∧ (∀ var, enforce_node_consistency c (enforce_node_consistency c d) var
        = enforce_node_consistency c d var) := by
  constructor
  · intro var hv
    constructor
    · unfold enforce_node_consistency
      rw [if_pos hv]
    · intro w hw
      unfold enforce_node_consistency at hw
      rw [if_pos hv] at hw
      exact beq_iff_eq.mp (List.mem_filter.mp hw).2
  · intro var
    by_cases hv : var ∈ c.vars
    · have houter : enforce_node_consistency c (enforce_node_consistency c d) var
          = (enforce_node_consistency c d var).filter
            (fun w => w.length == var.length) := by
        unfold enforce_node_consistency
        rw [if_pos hv]
      rw [houter]
      apply List.filter_eq_self.mpr
      intro w hw
      unfold enforce_node_consistency at hw
      rw [if_pos hv] at hw
      exact (List.mem_filter.mp hw).2
    · show (if var ∈ c.vars then _ else enforce_node_consistency c d var)
        = enforce_node_consistency c d var
      rw [if_neg hv]

theorem node_consistency_spec_witness :
    enforce_node_consistency cX (initialDomains cX) xA
      = ((initialDomains cX) xA).filter (fun w => w.length == xA.length) :=
  ((node_consistency_spec cX (initialDomains cX)).1 xA (by decide)).1

/-- C5: with overlap (i, j), revise(x, y) keeps in Domain(x) exactly the words
with a supporting word in Domain(y) and reports true exactly when some word
was removed; with no overlap it returns false and leaves every domain
unchanged. -/
theorem revise_characterization (c : Crossword) (d : Domains) (x y : Variable) :
    (∀ i j, c.overlaps x y = some (i, j) →
      (∀ w, w ∈ (revise c d x y).2 x ↔
          w ∈ d x ∧ ∃ v ∈ d y, charAt w i = charAt v j)
      ∧ ((revise c d x y).1 = true ↔
          ∃ w ∈ d x, ∀ v ∈ d y, charAt w i ≠ charAt v j))
    ∧ (c.overlaps x y = none → revise c d x y = (false, d)) := by
  constructor
  · intro i j hov
    rw [revise_some c d x y i j hov]
    constructor
    · intro w
      simp [supportedBy, List.mem_filter, List.any_eq_true]
    · simp [supportedBy, List.any_eq_true, List.any_eq_false]
  · intro hov
    exact revise_none c d x y hov

theorem revise_characterization_witness :
    ("xpa".toList : Word) ∈ (revise cX dX xB xC).2 xB ↔
      ("xpa".toList : Word) ∈ dX xB ∧ ∃ v ∈ dX xC,
        charAt "xpa".toList 0 = charAt v 0 :=
  ((revise_characterization cX dX xB xC).1 0 0 (by decide)).1 "xpa".toList

/-- C8: order_domain_values returns exactly the words of Domain(var) (a
permutation, without duplicates when the domain has none), sorted ascending
by ruled-out count. -/
theorem order_domain_values_spec (c : Crossword) (d : Domains) (a : Assignment)
    (var : Variable) :
    (order_domain_values c d var a).Perm (d var)
    ∧ List.Pairwise (fun w1 w2 =>
        ruled_out_count c d a var w1 ≤ ruled_out_count c d a var w2)
        (order_domain_values c d var a)
    ∧ ((d var).Nodup → (order_domain_values c d var a).Nodup) := by
  refine ⟨List.perm_insertionSort _ _, ?_, ?_⟩
  · exact List.sorted_insertionSort (lcvLE c d a var) (d var)
  · intro h
    exact ((List.perm_insertionSort (lcvLE c d a var) (d var)).nodup_iff).mpr h

theorem order_domain_values_spec_witness :
    (order_domain_values cX dX xA []).Perm (dX xA)
    ∧ (order_domain_values cX dX xA []).Nodup :=
  ⟨(order_domain_values_spec cX dX [] xA).1,
   (order_domain_values_spec cX dX [] xA).2.2 (by decide)⟩

lemma backtrack_none_of_empty_domain (c : Crossword) (d : Domains) (n : Nat)
    (v : Variable) (hv : v ∈ c.vars) (hvd : d v = []) :
    backtrack c d (n + 1) [] = none := by
  have hncomp : ¬ (assignment_complete c ([] : Assignment) = true) := by
    intro hcomp
    have h1 := List.all_eq_true.mp hcomp v hv
    simp [lookupA] at h1
  rw [backtrack, if_neg hncomp]
  cases hsel : select_unassigned_variable c d [] with
  | none => rfl
  | some var =>
    have hle := select_min_domain c d [] var hsel v hv rfl
    have hnil : d var = [] := by
      rw [hvd] at hle
      simpa using hle
    have hodv : order_domain_values c d var [] = [] := by
      rw [order_domain_values, hnil]
      rfl
    show (order_domain_values c d var []).findSome? _ = none
    rw [hodv]
    rfl

/-- C1 (amended): whenever ac3 returns false on the node-consistent domains,
solve returns none; backtrack is still invoked (solve discards the Boolean
result of ac3), but it fails immediately because an emptied domain's variable
is selected first and offers no candidate values. -/
theorem solve_none_of_ac3_false (c : Crossword)
    (h : (ac3 c (enforce_node_consistency c (initialDomains c))).1 = false) :
    solve c = none := by
  obtain ⟨v, hv, hvd⟩ :=
    ac3_false_empty c (enforce_node_consistency c (initialDomains c)) h
  unfold solve solveFuel
  exact backtrack_none_of_empty_domain c _ _ v hv hvd

theorem solve_none_of_ac3_false_witness : solve cU = none :=
  solve_none_of_ac3_false cU (by decide)

/-- C1 counterexample: on the unsatisfiable two-slot puzzle, ac3 returns
false after node consistency, yet the value of solve is by definition the
value of a backtrack call on the post-ac3 domains: backtrack is invoked (the
Boolean result of ac3 is never consulted), and that call returns none. -/
theorem solve_invokes_backtrack_after_ac3_false :
    (ac3 cU (enforce_node_consistency cU (initialDomains cU))).1 = false
    ∧ solve cU = backtrack cU
        ((ac3 cU (enforce_node_consistency cU (initialDomains cU))).2)
        (solveFuel cU) []
    ∧ backtrack cU
        ((ac3 cU (enforce_node_consistency cU (initialDomains cU))).2)
        (solveFuel cU) [] = none :=
  ⟨by decide, rfl, by decide⟩

/-- C2: every non-none result of solve is complete, assigns no word twice,
matches every word length to its variable, and satisfies every overlap
constraint between assigned variables. -/
theorem solve_solution_valid (c : Crossword) (r : Assignment)
    (h : solve c = some r) :
    assignment_complete c r = true
    ∧ (∀ x wx y wy, (x, wx) ∈ r → (y, wy) ∈ r → x ≠ y → wx ≠ wy)
    ∧ (∀ x wx, (x, wx) ∈ r → (wx : Word).length = x.length)
    ∧ (∀ x wx y wy i j, (x, wx) ∈ r → y ∈ c.vars → x ≠ y →
        c.overlaps x y = some (i, j) → lookupA r y = some wy →
        charAt wx i = charAt wy j) := by
  obtain ⟨hcomp, hcons⟩ := solve_sound c r h
  obtain ⟨hlen, hpw, hnb⟩ := consistent_sound c r hcons
  refine ⟨hcomp, ?_, ?_, ?_⟩
  · intro x wx y wy hx hy hxy
    have hpairs : ((x, wx) : Variable × Word) ≠ (y, wy) := by
      intro he
      exact hxy (congrArg Prod.fst he)
    exact List.Pairwise.forall (fun _ _ hpq => Ne.symm hpq) hpw hx hy hpairs
  · intro x wx hx
    exact hlen (x, wx) hx
  · intro x wx y wy i j hx hyv hxy hov hlook
    have hynb : y ∈ neighbors c x := by
      unfold neighbors
      refine List.mem_filter.mpr ⟨hyv, ?_⟩
      have h1 : (y != x) = true := bne_iff_ne.mpr (Ne.symm hxy)
      have h2 : (c.overlaps x y).isSome = true := by rw [hov]; rfl
      simp [h1, h2]
    exact hnb (x, wx) hx y hynb wy hlook i j hov

theorem solve_solution_valid_witness : assignment_complete cW rW = true :=
  (solve_solution_valid cW rW (by decide)).1

/-- C3 (code bug): on the three-slot puzzle, ac3 with the default arcs
returns true, yet the word pq remains in Domain(A) although no word of
Domain(B) matches it under the overlap (0, 1): the returned state is not arc
consistent, because the revision of B against C never re-enqueues the arc
(A, B). -/
theorem ac3_true_leaves_dead_value :
    (ac3 cX dX).1 = true
    ∧ (ac3 cX dX).2 xA = ["pq".toList, "rs".toList]
    ∧ (ac3 cX dX).2 xB = ["yra".toList]
    ∧ cX.overlaps xA xB = some (0, 1)
    ∧ charAt "pq".toList 0 ≠ charAt "yra".toList 1 := by decide

/-- C4 (code bug): at the reachable loop state where revise(B, C) prunes
Domain(B) and leaves it non-empty, the arcs appended to the worklist are
exactly [(B, A)]: the revised variable is the first component of each
appended arc, not the second as the claim states. -/
theorem ac3_enqueue_wrong_direction :
    (revise cX dX xB xC).1 = true
    ∧ ((revise cX dX xB xC).2 xB).isEmpty = false
    ∧ ac3_enqueue cX xB xC = [(xB, xA)]
    ∧ ((xB, xA) : Variable × Variable).2 ≠ xB := by decide

/-- C6 (code bug): on the puzzle whose only variable has an empty
node-consistent domain and no neighbors, ac3 returns true while that domain
is empty at return, contradicting the claim and the docstring of ac3. -/
theorem ac3_true_with_empty_domain :
    (ac3 cE dE).1 = true ∧ (ac3 cE dE).2 eA = [] ∧ eA ∈ cE.vars := by decide
